import Mathlib

/-!
Shallow embedding of the riftdb in-memory pub/sub core and its gRPC service
layer, together with theorems settling the specification claims.

Conventions of the embedding:
* machine integers (u64 lease ids, usize indices, u8 payload bytes) are Nat;
  only equality and ordering of these values matter to the verified claims;
* the monotonic clock (std::time::Instant) and wall clock (SystemTime) are a
  Nat instant passed explicitly to the operations that read the clock;
* the random 64-bit lease identity drawn by Lease::new (rand::random) is an
  explicit id argument threaded to the operations that mint leases;
* HashMap is an association list, VecDeque and Vec are List, with the source's
  iteration order being the list order;
* fallible operations return Except; operations that mutate through &mut self
  return the (result, new state) pair, the state unchanged on the paths where
  the source returns before writing.
-/

namespace RiftDB

/-- Queue/slot error type from src/pubsub/error.rs, extended with the
IndexOutOfRange value returned by Queue::ack and Queue::nack in
src/pubsub/queue.rs. -/
inductive Error where
  | MustBeLocked
  | MustBeFilled
  | MustBeEmpty
  | InvalidOrExpiredLease
  | QueueFull
  | IndexOutOfRange
deriving DecidableEq

/-- The thiserror display strings of src/pubsub/error.rs, used by
Topic::push via err.to_string(). IndexOutOfRange has no display string in
that file; it is unreachable from Topic::push. -/
def Error.toMessage : Error → String
  | .MustBeLocked => "the slot must be locked for this operation to complete"
  | .MustBeFilled => "the slot must be filled for this operation to complete"
  | .MustBeEmpty => "the slot must be empty for this operation to complete"
  | .InvalidOrExpiredLease => "the specified lease is either invalid, missing, or expired"
  | .QueueFull => "the queue is full and unable to accept new messages"
  | .IndexOutOfRange => "index out of range"

/-- LeaseTag from src/pubsub/lease.rs: the caller-visible metadata of a lease.
ttl is a duration, leased_at the wall-clock lease start, deadline its
wall-clock expiry estimate. -/
structure LeaseTag where
  id : Nat
  ttl : Nat
  leased_at : Nat
  deadline : Nat
deriving DecidableEq

/-- Lease from src/pubsub/lease.rs (same fields as src/queue/lease.rs):
ttl, monotonic lease start, random identity, and the captured value. -/
structure Lease (T : Type) where
  ttl : Nat
  leased_at : Nat
  id : Nat
  inner : T
deriving DecidableEq

/-- Lease::new: mints a lease from the supplied ttl and value; the random
identity and the current clock are explicit arguments of the embedding.
deadline = leased_at + ttl. -/
def Lease.new (ttl : Nat) (inner : T) (id now : Nat) : LeaseTag × Lease T :=
  (⟨id, ttl, now, now + ttl⟩, ⟨ttl, now, id, inner⟩)

/-- Lease::expired: the monotonic elapsed time since leased_at is at least
the ttl. -/
def Lease.expired (l : Lease T) (now : Nat) : Bool :=
  l.ttl ≤ now - l.leased_at

/-- Lease::valid: the supplied id matches this lease's identity. -/
def Lease.valid (l : Lease T) (o : Nat) : Bool :=
  l.id = o

/-- Slot from src/queue/slot.rs (re-exported as pubsub::Slot): a three-state
cell. -/
inductive Slot (T : Type) where
  | Empty
  | Filled (value : T)
  | Locked (lease : Lease T)
deriving DecidableEq

namespace Slot

variable {T : Type}

/-- Slot::is_empty. -/
def is_empty : Slot T → Bool
  | .Empty => true
  | _ => false

/-- Slot::is_filled. -/
def is_filled : Slot T → Bool
  | .Filled _ => true
  | _ => false

/-- Slot::is_locked. -/
def is_locked : Slot T → Bool
  | .Locked _ => true
  | _ => false

/-- Slot::is_expired: Locked with an expired lease. -/
def is_expired (s : Slot T) (now : Nat) : Bool :=
  match s with
  | .Locked lease => lease.expired now
  | _ => false

/-- Slot::check_empty. -/
def check_empty (s : Slot T) : Except Error Unit :=
  if s.is_empty then .ok () else .error .MustBeEmpty

/-- Slot::check_filled. -/
def check_filled (s : Slot T) : Except Error Unit :=
  if s.is_filled then .ok () else .error .MustBeFilled

/-- Slot::check_locked. -/
def check_locked (s : Slot T) : Except Error Unit :=
  if s.is_locked then .ok () else .error .MustBeLocked

/-- Slot::fill: check_empty, then become Filled(value). -/
def fill (s : Slot T) (value : T) : Except Error Unit × Slot T :=
  match s.check_empty with
  | .error e => (.error e, s)
  | .ok _ => (.ok (), .Filled value)

/-- Slot::lock: check_filled, take the value, mint a fresh lease over a clone
of it, become Locked, return the tag and the value. -/
def lock (s : Slot T) (ttl id now : Nat) : Except Error (LeaseTag × T) × Slot T :=
  match s.check_filled with
  | .error e => (.error e, s)
  | .ok _ =>
    match s with
    | .Filled value =>
      let (tag, lease) := Lease.new ttl value id now
      (.ok (tag, value), .Locked lease)
    | _ => (.error .MustBeFilled, s)

/-- Slot::ack: check_locked, check the lease identity, then become Empty. -/
def ack (s : Slot T) (id : Nat) : Except Error Unit × Slot T :=
  match s.check_locked with
  | .error e => (.error e, s)
  | .ok _ =>
    match s with
    | .Locked lease =>
      if lease.valid id then (.ok (), .Empty)
      else (.error .InvalidOrExpiredLease, s)
    | _ => (.error .MustBeLocked, s)

/-- Slot::nack: check_locked, check the lease identity, then become Filled
again with the lease's captured value. -/
def nack (s : Slot T) (id : Nat) : Except Error Unit × Slot T :=
  match s.check_locked with
  | .error e => (.error e, s)
  | .ok _ =>
    match s with
    | .Locked lease =>
      if lease.valid id then (.ok (), .Filled lease.inner)
      else (.error .InvalidOrExpiredLease, s)
    | _ => (.error .MustBeLocked, s)

/-- Slot::expired (the mutating check of src/queue/slot.rs): check_locked;
if the lease's ttl has elapsed, internally nack with the lease's own id and
report true, else report false. -/
def expired (s : Slot T) (now : Nat) : Except Error Bool × Slot T :=
  match s.check_locked with
  | .error e => (.error e, s)
  | .ok _ =>
    match s with
    | .Locked lease =>
      if lease.expired now then
        match s.nack lease.id with
        | (.ok _, s1) => (.ok true, s1)
        | (.error e, s1) => (.error e, s1)
      else (.ok false, s)
    | _ => (.error .MustBeLocked, s)

end Slot

/-- Association-list membership test for the waker HashMap (keys are consumer
Uuids, values are task wake handles; both modelled as Nat). -/
def alistHasKey : List (Nat × Nat) → Nat → Bool
  | [], _ => false
  | p :: rest, id => if p.1 = id then true else alistHasKey rest id

/-- HashMap::insert for the waker map: replace the value stored under an
existing key, else add the binding. -/
def alistInsert : List (Nat × Nat) → Nat → Nat → List (Nat × Nat)
  | [], id, h => [(id, h)]
  | p :: rest, id, h =>
    if p.1 = id then (id, h) :: rest else p :: alistInsert rest id h

/-- HashMap::remove for the waker map: return and delete the value stored
under the key, if any. -/
def alistRemove : List (Nat × Nat) → Nat → Option Nat × List (Nat × Nat)
  | [], _ => (none, [])
  | p :: rest, id =>
    if p.1 = id then (some p.2, rest)
    else
      let (r, m) := alistRemove rest id
      (r, p :: m)

/-- Number of bindings a key has in the waker map. -/
def keyCount : List (Nat × Nat) → Nat → Nat
  | [], _ => 0
  | p :: rest, id => (if p.1 = id then 1 else 0) + keyCount rest id

/-- Waker registry from src/pubsub/waker.rs: an id-to-handle map and a FIFO
of ids in first-registration order (front = head of the list). -/
structure Waker where
  wakers : List (Nat × Nat)
  ids : List Nat
deriving DecidableEq

/-- The Waker::default() empty registry. -/
def Waker.empty : Waker := ⟨[], []⟩

/-- Waker::register: always store the newest handle under the id; append the
id to the FIFO only if it was never seen before. -/
def Waker.register (w : Waker) (id h : Nat) : Waker :=
  if alistHasKey w.wakers id then
    { wakers := alistInsert w.wakers id h, ids := w.ids }
  else
    { wakers := alistInsert w.wakers id h, ids := w.ids ++ [id] }

/-- Observable outcome of Waker::wake: the FIFO was empty, a consumer with
the given id was woken, or the unreachable branch was hit (an id popped from
the FIFO with no handle in the map). -/
inductive WakeResult where
  | empty
  | woke (id : Nat)
  | panicked
deriving DecidableEq

/-- Waker::wake: pop the oldest id off the FIFO; if none, no-op; otherwise
remove its handle from the map and wake it; a missing handle is the source's
unreachable panic. -/
def Waker.wake (w : Waker) : WakeResult × Waker :=
  match w.ids with
  | [] => (.empty, w)
  | id :: rest =>
    match alistRemove w.wakers id with
    | (some _, m) => (.woke id, { wakers := m, ids := rest })
    | (none, m) => (.panicked, { wakers := m, ids := rest })

/-- One waker-registry operation, for reachability over operation sequences. -/
inductive WOp where
  | reg (id h : Nat)
  | wk
deriving DecidableEq

/-- Apply one waker-registry operation. -/
def Waker.applyOp (w : Waker) : WOp → Waker
  | .reg id h => w.register id h
  | .wk => (w.wake).2

/-- Apply a sequence of waker-registry operations. -/
def Waker.applyOps (w : Waker) (ops : List WOp) : Waker :=
  ops.foldl Waker.applyOp w

/-- Register a whole list of (id, handle) pairs in order. -/
def Waker.registerAll (w : Waker) (rs : List (Nat × Nat)) : Waker :=
  rs.foldl (fun w p => w.register p.1 p.2) w

/-- Perform n successive Waker::wake calls, collecting their outcomes. -/
def Waker.wakeN : Nat → Waker → List WakeResult × Waker
  | 0, w => ([], w)
  | n + 1, w =>
    let (r, w1) := w.wake
    let (rs, w2) := Waker.wakeN n w1
    (r :: rs, w2)

/-- The order in which distinct ids first occur in a registration sequence:
an id already seen keeps its position, a new id is appended. -/
def firstRegOrder (idsList : List Nat) : List Nat :=
  idsList.foldl (fun acc id => if id ∈ acc then acc else acc ++ [id]) []

/-- iter().enumerate().find(p): index and value of the first element
satisfying p. -/
def enumFind (p : α → Bool) : List α → Option (Nat × α)
  | [] => none
  | x :: xs =>
    if p x then some (0, x)
    else (enumFind p xs).map (fun r => (r.1 + 1, r.2))

/-- Queue from src/pubsub/queue.rs: a lease ttl, the slot vector and the
waker registry (the two Mutex-protected shared fields). -/
structure Queue (T : Type) where
  ttl : Nat
  slots : List (Slot T)
  waker : Waker
deriving DecidableEq

namespace Queue

variable {T : Type}

/-- Queue::ack: bounds-check the index, then delegate to Slot::ack. -/
def ack (q : Queue T) (lease_id index : Nat) : Except Error Unit × Queue T :=
  if h : index < q.slots.length then
    let (res, s) := (q.slots.get ⟨index, h⟩).ack lease_id
    (res, { q with slots := q.slots.set index s })
  else
    (.error .IndexOutOfRange, q)

/-- Queue::nack: bounds-check the index, then delegate to Slot::nack. -/
def nack (q : Queue T) (lease_id index : Nat) : Except Error Unit × Queue T :=
  if h : index < q.slots.length then
    let (res, s) := (q.slots.get ⟨index, h⟩).nack lease_id
    (res, { q with slots := q.slots.set index s })
  else
    (.error .IndexOutOfRange, q)

/-- Queue::push: fill the first Empty slot, appending a fresh Empty slot when
none exists; on success wake the oldest registered consumer. The third
component is the outcome of that wake call (none when fill failed and wake
was not invoked). -/
def push (q : Queue T) (msg : T) : Except Error Unit × Queue T × Option WakeResult :=
  match enumFind Slot.is_empty q.slots with
  | some r =>
    let (res, s) := r.2.fill msg
    match res with
    | .ok _ =>
      let (wr, w) := q.waker.wake
      (.ok (), { q with slots := q.slots.set r.1 s, waker := w }, some wr)
    | .error e => (.error e, { q with slots := q.slots.set r.1 s }, none)
  | none =>
    let (res, s) := Slot.Empty.fill msg
    match res with
    | .ok _ =>
      let (wr, w) := q.waker.wake
      (.ok (), { q with slots := q.slots ++ [s], waker := w }, some wr)
    | .error e => (.error e, { q with slots := q.slots ++ [s] }, none)

/-- Queue::next from src/pubsub/queue.rs: find the first Filled slot and lock
it; the fresh lease id and the clock are explicit arguments. Note the scan
predicate is is_filled only. -/
def next (q : Queue T) (id now : Nat) : Option (LeaseTag × Nat × T) × Queue T :=
  match enumFind Slot.is_filled q.slots with
  | none => (none, q)
  | some r =>
    let (res, s) := r.2.lock q.ttl id now
    match res with
    | .ok tv => (some (tv.1, r.1, tv.2), { q with slots := q.slots.set r.1 s })
    | .error _ => (none, { q with slots := q.slots.set r.1 s })

end Queue

/-- UnboundedQueue::next from src/queue/unbounded.rs, over the slot vector:
find the first slot that is Filled or expired-Locked; an expired slot is
first internally nacked (Slot::expired) and then locked like a Filled one. -/
def unboundedNext (ttl : Nat) (slots : List (Slot T)) (id now : Nat) :
    Option (LeaseTag × Nat × T) × List (Slot T) :=
  match enumFind (fun s => s.is_filled || s.is_expired now) slots with
  | none => (none, slots)
  | some r =>
    if r.2.is_filled then
      let (res, s) := r.2.lock ttl id now
      match res with
      | .ok tv => (some (tv.1, r.1, tv.2), slots.set r.1 s)
      | .error _ => (none, slots.set r.1 s)
    else if r.2.is_expired now then
      match r.2.expired now with
      | (.error _, _) => (none, slots)
      | (.ok _, s1) =>
        let (res, s) := s1.lock ttl id now
        match res with
        | .ok tv => (some (tv.1, r.1, tv.2), slots.set r.1 s)
        | .error _ => (none, slots.set r.1 s)
    else (none, slots)

/-- HashMap::get for string-keyed maps (topics and subscriptions). -/
def alookup : List (String × α) → String → Option α
  | [], _ => none
  | p :: rest, k => if p.1 = k then some p.2 else alookup rest k

/-- Write back the entity stored under a key (the effect of mutating a
cloned, Arc-shared Topic handle obtained from the registry). -/
def supdate : List (String × α) → String → α → List (String × α)
  | [], _, _ => []
  | p :: rest, k, v =>
    if p.1 = k then (k, v) :: rest else p :: supdate rest k v

/-- Sub from src/pubsub/sub.rs: timestamps plus the backing queue. -/
structure Sub (T : Type) where
  updated : Option Nat
  created : Nat
  queue : Queue T
deriving DecidableEq

/-- Topic from src/pubsub/topic.rs: timestamps plus the subscriptions map,
keyed by subscription name; the list order is the HashMap iteration order. -/
structure Topic (T : Type) where
  updated : Option Nat
  created : Nat
  subscriptions : List (String × Sub T)
deriving DecidableEq

/-- Topic::push: take the first subscription produced by the map iterator
(subs.iter().next()); with no subscriptions fail; otherwise push the message
onto that one subscription's queue, mapping the error to its display
string. -/
def Topic.push (t : Topic T) (msg : T) : Except String Unit × Topic T :=
  match t.subscriptions with
  | [] => (.error "no subscriptions....", t)
  | (name, sub) :: rest =>
    let (res, q, _) := sub.queue.push msg
    match res with
    | .ok _ => (.ok (), { t with subscriptions := (name, { sub with queue := q }) :: rest })
    | .error e => (.error e.toMessage, t)

/-- Topic::get: subscription lookup by name. -/
def Topic.get (t : Topic T) (name : String) : Option (Sub T) :=
  alookup t.subscriptions name

/-- Wire Message from the pubsub proto: opaque byte payload, topic name,
attributes, optional publish timestamp. -/
structure Message where
  topic : String
  data : List Nat
  attributes : List (String × String)
  published : Option Nat
deriving DecidableEq

/-- ConfimrationStatus::Committed from the pubsub proto. -/
inductive ConfStatus where
  | Committed
deriving DecidableEq

/-- Wire Confirmation. -/
structure Confirmation where
  status : ConfStatus
deriving DecidableEq

/-- The typed wire failure of a service call. notFound carries the missing
topic name (topic_not_found from src/grpc/error.rs). -/
inductive Status where
  | invalidArgument (msg : String)
  | notFound (topic : String)
  | internal (msg : String)
deriving DecidableEq

/-- Handler::_publish from src/grpc/pubsub/handler.rs: validate data then
topic, look the topic up in the registry, stamp published = now, delegate to
Topic::push, and map the outcome to Committed or Internal. The returned
registry reflects the push mutating the Arc-shared topic. -/
def Handler.publish (reg : List (String × Topic Message)) (msg : Message) (now : Nat) :
    Except Status Confirmation × List (String × Topic Message) :=
  if msg.data = [] then
    (.error (.invalidArgument "data payload must be non-empty."), reg)
  else if msg.topic = "" then
    (.error (.invalidArgument "topic name must be non-empty"), reg)
  else
    match alookup reg msg.topic with
    | none => (.error (.notFound msg.topic), reg)
    | some topic =>
      let stamped := { msg with published := some now }
      let (res, t) := topic.push stamped
      match res with
      | .ok _ => (.ok ⟨.Committed⟩, supdate reg msg.topic t)
      | .error e =>
        (.error (.internal ("queue is full or otherwise invalid: " ++ e)), supdate reg msg.topic t)

/-- Byte-wise lexicographic order on char lists, the order Rust's String Ord
uses for sort_by_key. -/
def lexLe : List Char → List Char → Bool
  | [], _ => true
  | _ :: _, [] => false
  | a :: xs, b :: ys =>
    if a.toNat < b.toNat then true
    else if b.toNat < a.toNat then false
    else lexLe xs ys

/-- Lexicographic order on strings. -/
def strLe (a b : String) : Bool := lexLe a.data b.data

/-- Wire Topic built by Topic::from_inner in src/grpc/topic/mod.rs. -/
structure WireTopic where
  name : String
  created : Nat
  updated : Option Nat
deriving DecidableEq

/-- Topic::from_inner. -/
def WireTopic.from_inner (name : String) (t : Topic T) : WireTopic :=
  ⟨name, t.created, t.updated⟩

/-- The sort key relation of Handler::_list: ascending by topic name. -/
def nameLe (a b : WireTopic) : Prop := strLe a.name b.name = true

instance : DecidableRel nameLe := fun a b =>
  inferInstanceAs (Decidable (strLe a.name b.name = true))

/-- Handler::_list from src/grpc/topic/handler.rs: snapshot the registry into
wire topics and sort ascending by name (sort_by_key, a stable ascending
sort). -/
def topicsList (reg : List (String × Topic T)) : List WireTopic :=
  List.insertionSort nameLe (reg.map (fun p => WireTopic.from_inner p.1 p.2))

/-- Wire Subscription built by Subscription::from_inner. -/
structure WireSub where
  name : String
  topic : String
  created : Nat
  updated : Option Nat
deriving DecidableEq

/-- Subscription::from_inner. -/
def WireSub.from_inner (name topic : String) (s : Sub T) : WireSub :=
  ⟨name, topic, s.created, s.updated⟩

/-- The sort key relation of the subscription Handler::_list. -/
def subNameLe (a b : WireSub) : Prop := strLe a.name b.name = true

instance : DecidableRel subNameLe := fun a b =>
  inferInstanceAs (Decidable (strLe a.name b.name = true))

/-- Handler::_list from src/grpc/subscription/handler.rs: snapshot one
topic's subscriptions into wire subscriptions sorted ascending by name. -/
def subsList (topicName : String) (t : Topic T) : List WireSub :=
  List.insertionSort subNameLe
    (t.subscriptions.map (fun p => WireSub.from_inner p.1 topicName p.2))

/-- Vec::pop: remove and return the last element. -/
def vecPop : List α → Option α × List α
  | [] => (none, [])
  | [x] => (some x, [])
  | x :: y :: rest =>
    let (r, m) := vecPop (y :: rest)
    (r, x :: m)

/-- The item produced by the (k+1)-th poll of the list-backed streams
(TopicStream::poll_next and SubscriptionStream::poll_next pop from the back
of the vector on every poll). -/
def popN : Nat → List α → Option α
  | 0, l => (vecPop l).1
  | k + 1, l => popN k (vecPop l).2

/-- An empty queue with the default 10 second ttl, for concrete runs. -/
def emptyQueue : Queue Nat := ⟨10, [], Waker.empty⟩

/-- A topic with two subscriptions "a" and "b", both with empty queues. -/
def twoSubTopic : Topic Nat :=
  ⟨none, 0, [("a", ⟨none, 0, emptyQueue⟩), ("b", ⟨none, 0, emptyQueue⟩)]⟩

/-- A lease taken at instant 0 with ttl 10 over the value 42, identity 5. -/
def expiredLease : Lease Nat := ⟨10, 0, 5, 42⟩

/-- A queue whose only slot is Locked under expiredLease. -/
def lockedQueue : Queue Nat := ⟨10, [Slot.Locked expiredLease], Waker.empty⟩

/-- A registry holding topics "a" and "b", for the list-order run. -/
def twoTopicReg : List (String × Topic Nat) :=
  [("a", ⟨none, 0, []⟩), ("b", ⟨none, 1, []⟩)]

/-- The waker-registry invariant: the FIFO holds distinct ids, and an id has
exactly one handle in the map precisely when it sits in the FIFO. -/
def WakerInv (w : Waker) : Prop :=
  w.ids.Nodup ∧ ∀ id : Nat, keyCount w.wakers id = (if id ∈ w.ids then 1 else 0)

/-! ## Helper lemmas on the list primitives -/

theorem enumFind_cons (p : α → Bool) (x : α) (xs : List α) :
    enumFind p (x :: xs)
      = if p x then some (0, x) else (enumFind p xs).map (fun r => (r.1 + 1, r.2)) := rfl

theorem enumFind_eq_some {p : α → Bool} {l : List α} {i : Nat} {s : α}
    (h : enumFind p l = some (i, s)) : l[i]? = some s ∧ p s = true := by
  induction l generalizing i with
  | nil => simp [enumFind] at h
  | cons x xs ih =>
    rw [enumFind_cons] at h
    by_cases hx : p x
    · rw [if_pos hx] at h
      have h2 : ((0 : Nat), x) = (i, s) := Option.some.inj h
      have hi : 0 = i := congrArg Prod.fst h2
      have hs : x = s := congrArg Prod.snd h2
      subst hi; subst hs
      simpa using hx
    · rw [if_neg hx] at h
      cases hfind : enumFind p xs with
      | none => rw [hfind] at h; simp at h
      | some r =>
        rw [hfind] at h
        have h2 : (r.1 + 1, r.2) = (i, s) := Option.some.inj h
        have hi : r.1 + 1 = i := congrArg Prod.fst h2
        have hs : r.2 = s := congrArg Prod.snd h2
        subst hi; subst hs
        simpa using ih hfind

theorem enumFind_lt_not {p : α → Bool} {l : List α} {i : Nat} {s : α}
    (h : enumFind p l = some (i, s)) :
    ∀ j y, j < i → l[j]? = some y → p y = false := by
  induction l generalizing i with
  | nil => simp [enumFind] at h
  | cons x xs ih =>
    rw [enumFind_cons] at h
    by_cases hx : p x
    · rw [if_pos hx] at h
      have h2 : ((0 : Nat), x) = (i, s) := Option.some.inj h
      have hi : 0 = i := congrArg Prod.fst h2
      subst hi
      intro j y hj
      omega
    · rw [if_neg hx] at h
      cases hfind : enumFind p xs with
      | none => rw [hfind] at h; simp at h
      | some r =>
        rw [hfind] at h
        have h2 : (r.1 + 1, r.2) = (i, s) := Option.some.inj h
        have hi : r.1 + 1 = i := congrArg Prod.fst h2
        have hs : r.2 = s := congrArg Prod.snd h2
        have hfind2 : enumFind p xs = some (r.1, s) := by rw [← hs]; exact hfind
        subst hi
        intro j y hj hy
        cases j with
        | zero =>
          simp at hy
          subst hy
          simpa using hx
        | succ n =>
          simp at hy
          have hjn : n < r.1 := by omega
          exact ih hfind2 n y hjn hy

theorem enumFind_of_spec {p : α → Bool} {l : List α} {i : Nat} {s : α}
    (h1 : l[i]? = some s) (h2 : p s = true)
    (h3 : ∀ j y, j < i → l[j]? = some y → p y = false) :
    enumFind p l = some (i, s) := by
  induction l generalizing i with
  | nil => simp at h1
  | cons x xs ih =>
    cases i with
    | zero =>
      simp at h1
      subst h1
      simp [enumFind, h2]
    | succ n =>
      have hx : p x = false := h3 0 x (Nat.succ_pos n) (by simp)
      simp at h1
      have := ih h1 (fun j y hj hy => h3 (j + 1) y (by omega) (by simpa using hy))
      simp [enumFind, hx, this]

theorem set_get_self (l : List α) (i : Nat) (h : i < l.length) :
    l.set i (l.get ⟨i, h⟩) = l := by
  induction l generalizing i with
  | nil => simp at h
  | cons x xs ih =>
    cases i with
    | zero => simp
    | succ n => simpa using ih n (by simpa using h)

theorem vecPop_cons_cons (a b : α) (m : List α) :
    vecPop (a :: b :: m) = ((vecPop (b :: m)).1, a :: (vecPop (b :: m)).2) := rfl

theorem vecPop_append_single (l : List α) (x : α) :
    vecPop (l ++ [x]) = (some x, l) := by
  induction l with
  | nil => rfl
  | cons a l ih =>
    cases l with
    | nil => rfl
    | cons b m =>
      have ih2 : vecPop (b :: (m ++ [x])) = (some x, b :: m) := ih
      show ((vecPop (b :: (m ++ [x]))).1, a :: (vecPop (b :: (m ++ [x]))).2)
        = (some x, a :: b :: m)
      rw [ih2]

theorem popN_nil (k : Nat) : popN k ([] : List α) = none := by
  induction k with
  | zero => rfl
  | succ n ih => simpa [popN, vecPop] using ih

theorem popN_reverse (m : List α) (k : Nat) : popN k m.reverse = m[k]? := by
  induction m generalizing k with
  | nil => simpa using popN_nil k
  | cons y ys ih =>
    cases k with
    | zero =>
      have h2 : popN 0 ((y :: ys).reverse) = (vecPop (ys.reverse ++ [y])).1 := by
        rw [popN, List.reverse_cons]
      rw [h2, vecPop_append_single]
      simp
    | succ n =>
      have h2 : popN (n + 1) ((y :: ys).reverse) = popN n (vecPop (ys.reverse ++ [y])).2 := by
        rw [popN, List.reverse_cons]
      rw [h2, vecPop_append_single]
      show popN n ys.reverse = (y :: ys)[n + 1]?
      rw [List.getElem?_cons_succ]
      exact ih n

/-! ## Slot transition lemmas -/

theorem Slot.lock_filled {T : Type} (v : T) (ttl id now : Nat) :
    (Slot.Filled v).lock ttl id now
      = (.ok (⟨id, ttl, now, now + ttl⟩, v), Slot.Locked ⟨ttl, now, id, v⟩) := rfl

theorem Slot.lock_ok {T : Type} {s : Slot T} {ttl id now : Nat} {tag : LeaseTag}
    {v : T} {s1 : Slot T} (h : s.lock ttl id now = (.ok (tag, v), s1)) :
    s = Slot.Filled v ∧ tag = ⟨id, ttl, now, now + ttl⟩
      ∧ s1 = Slot.Locked ⟨ttl, now, id, v⟩ := by
  cases s with
  | Empty => simp [Slot.lock, Slot.check_filled, Slot.is_filled] at h
  | Locked l => simp [Slot.lock, Slot.check_filled, Slot.is_filled] at h
  | Filled w =>
    rw [Slot.lock_filled] at h
    have h1 : (Except.ok (ε := Error) ((⟨id, ttl, now, now + ttl⟩ : LeaseTag), w))
        = .ok (tag, v) := congrArg Prod.fst h
    have h2 : Slot.Locked (⟨ttl, now, id, w⟩ : Lease T) = s1 := congrArg Prod.snd h
    have h3 : ((⟨id, ttl, now, now + ttl⟩ : LeaseTag), w) = (tag, v) := by
      cases h1; rfl
    have htag : (⟨id, ttl, now, now + ttl⟩ : LeaseTag) = tag := congrArg Prod.fst h3
    have hv : w = v := congrArg Prod.snd h3
    subst hv
    exact ⟨rfl, htag.symm, h2.symm⟩

theorem Slot.ack_error {T : Type} (s : Slot T) (id : Nat) (e : Error)
    (h : (s.ack id).1 = .error e) : (s.ack id).2 = s := by
  cases s with
  | Empty => rfl
  | Filled v => rfl
  | Locked l =>
    by_cases hv : l.valid id = true
    · simp [Slot.ack, Slot.check_locked, Slot.is_locked, hv] at h
    · simp [Slot.ack, Slot.check_locked, Slot.is_locked, hv]

theorem Slot.nack_error {T : Type} (s : Slot T) (id : Nat) (e : Error)
    (h : (s.nack id).1 = .error e) : (s.nack id).2 = s := by
  cases s with
  | Empty => rfl
  | Filled v => rfl
  | Locked l =>
    by_cases hv : l.valid id = true
    · simp [Slot.nack, Slot.check_locked, Slot.is_locked, hv] at h
    · simp [Slot.nack, Slot.check_locked, Slot.is_locked, hv]

/-- C6: Slot::ack(id) and Slot::nack(id) succeed exactly when the slot is
Locked and the stored lease identity equals id; a non-Locked slot fails with
MustBeLocked, a Locked slot with a mismatched id fails with
InvalidOrExpiredLease; success of ack yields Empty and success of nack
yields Filled with the lease's captured value. -/
theorem slot_ack_nack_contract {T : Type} (s : Slot T) (id : Nat) :
    ((s.ack id).1.isOk = true ↔ ∃ l, s = Slot.Locked l ∧ l.id = id) ∧
    ((s.nack id).1.isOk = true ↔ ∃ l, s = Slot.Locked l ∧ l.id = id) ∧
    (s.is_locked = false →
      s.ack id = (.error .MustBeLocked, s) ∧ s.nack id = (.error .MustBeLocked, s)) ∧
    (∀ l, s = Slot.Locked l → l.id ≠ id →
      s.ack id = (.error .InvalidOrExpiredLease, s) ∧
      s.nack id = (.error .InvalidOrExpiredLease, s)) ∧
    (∀ l, s = Slot.Locked l → l.id = id →
      s.ack id = (.ok (), Slot.Empty) ∧ s.nack id = (.ok (), Slot.Filled l.inner)) := by
  cases s with
  | Empty =>
    refine ⟨?_, ?_, ?_, ?_, ?_⟩ <;>
      simp [Slot.ack, Slot.nack, Slot.check_locked, Slot.is_locked, Except.isOk, Except.toBool]
  | Filled v =>
    refine ⟨?_, ?_, ?_, ?_, ?_⟩ <;>
      simp [Slot.ack, Slot.nack, Slot.check_locked, Slot.is_locked, Except.isOk, Except.toBool]
  | Locked l =>
    by_cases hid : l.id = id
    · refine ⟨?_, ?_, ?_, ?_, ?_⟩ <;>
        simp [Slot.ack, Slot.nack, Slot.check_locked, Slot.is_locked, Lease.valid, hid,
          Except.isOk, Except.toBool]
    · refine ⟨?_, ?_, ?_, ?_, ?_⟩ <;>
        simp [Slot.ack, Slot.nack, Slot.check_locked, Slot.is_locked, Lease.valid, hid,
          Except.isOk, Except.toBool]

/-- Witness for C6: a Locked slot with matching id acks to Empty and nacks
back to Filled with the captured value. -/
theorem slot_ack_nack_contract_witness :
    (Slot.Locked (⟨10, 0, 5, 42⟩ : Lease Nat)).ack 5 = (.ok (), Slot.Empty) ∧
    (Slot.Locked (⟨10, 0, 5, 42⟩ : Lease Nat)).nack 5 = (.ok (), Slot.Filled 42) :=
  (slot_ack_nack_contract (Slot.Locked ⟨10, 0, 5, 42⟩) 5).2.2.2.2 ⟨10, 0, 5, 42⟩ rfl rfl

/-- C9: whenever Queue::ack or Queue::nack returns an error (IndexOutOfRange
included), the queue state is exactly what it was before the call. -/
theorem queue_ack_nack_error_atomic {T : Type} (q : Queue T) (lease_id index : Nat) :
    (∀ e, (q.ack lease_id index).1 = .error e → (q.ack lease_id index).2 = q) ∧
    (∀ e, (q.nack lease_id index).1 = .error e → (q.nack lease_id index).2 = q) := by
  constructor
  · intro e herr
    unfold Queue.ack at herr ⊢
    by_cases h : index < q.slots.length
    · rw [dif_pos h] at herr ⊢
      cases hX : (q.slots.get ⟨index, h⟩).ack lease_id with
      | mk res s =>
        rw [hX] at herr
        have herr2 : res = Except.error e := herr
        show { q with slots := q.slots.set index s } = q
        have h2 := Slot.ack_error (q.slots.get ⟨index, h⟩) lease_id e (by rw [hX]; exact herr2)
        have h3 : s = q.slots.get ⟨index, h⟩ := by rw [hX] at h2; exact h2
        rw [h3, set_get_self]
    · rw [dif_neg h]
  · intro e herr
    unfold Queue.nack at herr ⊢
    by_cases h : index < q.slots.length
    · rw [dif_pos h] at herr ⊢
      cases hX : (q.slots.get ⟨index, h⟩).nack lease_id with
      | mk res s =>
        rw [hX] at herr
        have herr2 : res = Except.error e := herr
        show { q with slots := q.slots.set index s } = q
        have h2 := Slot.nack_error (q.slots.get ⟨index, h⟩) lease_id e (by rw [hX]; exact herr2)
        have h3 : s = q.slots.get ⟨index, h⟩ := by rw [hX] at h2; exact h2
        rw [h3, set_get_self]
    · rw [dif_neg h]

/-- Witness for C9: acking the empty-index queue and a non-Locked slot both
leave the queue unchanged. -/
theorem queue_ack_nack_error_atomic_witness :
    ((⟨10, [Slot.Empty], Waker.empty⟩ : Queue Nat).ack 0 0).2
      = (⟨10, [Slot.Empty], Waker.empty⟩ : Queue Nat) :=
  (queue_ack_nack_error_atomic (⟨10, [Slot.Empty], Waker.empty⟩ : Queue Nat) 0 0).1
    Error.MustBeLocked rfl

/-- C1 (code evaluation): Topic::push on a topic with the two subscriptions
"a" and "b" reports success but enqueues the message only on the first
subscription the map iterator yields; the other subscription's queue stays
empty, contradicting fan-out to every subscription. -/
theorem topic_push_single_delivery :
    (twoSubTopic.push 7).1 = .ok () ∧
    ((twoSubTopic.push 7).2.get "a").map (fun s => s.queue.slots) = some [Slot.Filled 7] ∧
    ((twoSubTopic.push 7).2.get "b").map (fun s => s.queue.slots) = some [] :=
  ⟨rfl, rfl, rfl⟩

/-- C2 (code evaluation): with a single Locked slot whose lease (taken at
instant 0, ttl 10) is expired at instant 10, pubsub Queue::next returns None
and leaves the slot Locked under the stale lease, while
UnboundedQueue::next on the same slots redelivers the value at the same
index under a fresh lease. -/
theorem queue_next_skips_expired_slot :
    (Slot.Locked expiredLease).is_expired 10 = true ∧
    lockedQueue.next 7 10 = (none, lockedQueue) ∧
    unboundedNext 10 lockedQueue.slots 7 10
      = (some (⟨7, 10, 10, 20⟩, 0, 42), [Slot.Locked ⟨10, 10, 7, 42⟩]) :=
  ⟨rfl, by decide, by decide⟩

/-! ## Queue operation lemmas -/

theorem Queue.push_found {T : Type} (q : Queue T) (msg : T) {i : Nat} {s0 : Slot T}
    (henum : enumFind Slot.is_empty q.slots = some (i, s0)) :
    q.push msg = (.ok (),
      { q with slots := q.slots.set i (Slot.Filled msg), waker := (q.waker.wake).2 },
      some (q.waker.wake).1) := by
  have hp := (enumFind_eq_some henum).2
  have hEmpty : s0 = Slot.Empty := by
    cases s0 with
    | Empty => rfl
    | Filled v => simp [Slot.is_empty] at hp
    | Locked l => simp [Slot.is_empty] at hp
  subst hEmpty
  unfold Queue.push
  rw [henum]
  rfl

theorem Queue.push_none {T : Type} (q : Queue T) (msg : T)
    (henum : enumFind Slot.is_empty q.slots = none) :
    q.push msg = (.ok (),
      { q with slots := q.slots ++ [Slot.Filled msg], waker := (q.waker.wake).2 },
      some (q.waker.wake).1) := by
  unfold Queue.push
  rw [henum]
  rfl

/-- C7: Queue::push never fails (in particular it never returns QueueFull):
it fills the first Empty slot when one exists and otherwise appends a new
Filled slot; every non-Empty slot is left exactly as it was. -/
theorem queue_push_contract {T : Type} (q : Queue T) (msg : T) :
    (q.push msg).1 = Except.ok () ∧
    (∀ i s0, enumFind Slot.is_empty q.slots = some (i, s0) →
      q.slots[i]? = some Slot.Empty ∧
      (q.push msg).2.1.slots = q.slots.set i (Slot.Filled msg)) ∧
    (enumFind Slot.is_empty q.slots = none →
      (q.push msg).2.1.slots = q.slots ++ [Slot.Filled msg]) ∧
    (∀ (j : Nat) (y : Slot T), q.slots[j]? = some y → y ≠ Slot.Empty →
      (q.push msg).2.1.slots[j]? = some y) := by
  cases henum : enumFind Slot.is_empty q.slots with
  | some r =>
    obtain ⟨i, s0⟩ := r
    have hpush := Queue.push_found q msg henum
    have hget := (enumFind_eq_some henum).1
    have hp := (enumFind_eq_some henum).2
    have hEmpty : s0 = Slot.Empty := by
      cases s0 with
      | Empty => rfl
      | Filled v => simp [Slot.is_empty] at hp
      | Locked l => simp [Slot.is_empty] at hp
    subst hEmpty
    refine ⟨by rw [hpush], ?_, ?_, ?_⟩
    · intro i2 s2 h2
      have hh := Option.some.inj h2
      have hi : i = i2 := congrArg Prod.fst hh
      subst hi
      exact ⟨hget, by rw [hpush]⟩
    · intro hnone
      exact Option.noConfusion hnone
    · intro j y hjy hne
      rw [hpush]
      show (q.slots.set i (Slot.Filled msg))[j]? = some y
      by_cases hji : j = i
      · subst hji
        rw [hjy] at hget
        exact absurd (Option.some.inj hget) hne
      · have hset : (q.slots.set i (Slot.Filled msg))[j]? = q.slots[j]? :=
          List.getElem?_set_ne (Ne.symm hji)
        exact hset.trans hjy
  | none =>
    have hpush := Queue.push_none q msg henum
    refine ⟨by rw [hpush], ?_, ?_, ?_⟩
    · intro i2 s2 h2
      exact Option.noConfusion h2
    · intro _
      rw [hpush]
    · intro j y hjy hne
      rw [hpush]
      show (q.slots ++ [Slot.Filled msg])[j]? = some y
      have hj : j < q.slots.length := by
        by_contra hcon
        rw [List.getElem?_eq_none (by omega)] at hjy
        exact Option.noConfusion hjy
      rw [List.getElem?_append, if_pos hj]
      exact hjy

/-- Witness for C7: pushing into a queue whose first Empty slot is at index 1
fills that slot and leaves the Filled slot at index 0 alone. -/
theorem queue_push_contract_witness :
    (⟨10, [Slot.Filled 1, Slot.Empty], Waker.empty⟩ : Queue Nat).slots[1]? = some Slot.Empty ∧
    (((⟨10, [Slot.Filled 1, Slot.Empty], Waker.empty⟩ : Queue Nat).push 9).2.1.slots
      = [Slot.Filled 1, Slot.Empty].set 1 (Slot.Filled 9)) :=
  (queue_push_contract (⟨10, [Slot.Filled 1, Slot.Empty], Waker.empty⟩ : Queue Nat) 9).2.1
    1 Slot.Empty (by decide)

theorem Queue.next_none {T : Type} (q : Queue T) (id now : Nat)
    (h : enumFind Slot.is_filled q.slots = none) : q.next id now = (none, q) := by
  unfold Queue.next
  rw [h]

theorem Queue.next_found {T : Type} (q : Queue T) (id now : Nat) (i : Nat) (v : T)
    (h : enumFind Slot.is_filled q.slots = some (i, Slot.Filled v)) :
    q.next id now = (some (⟨id, q.ttl, now, now + q.ttl⟩, i, v),
      { q with slots := q.slots.set i (Slot.Locked ⟨q.ttl, now, id, v⟩) }) := by
  unfold Queue.next
  rw [h]
  rfl

theorem Queue.next_eq_some {T : Type} {q : Queue T} {id now : Nat} {tag : LeaseTag}
    {i : Nat} {v : T} {q2 : Queue T}
    (h : q.next id now = (some (tag, i, v), q2)) :
    enumFind Slot.is_filled q.slots = some (i, Slot.Filled v) ∧
    tag = ⟨id, q.ttl, now, now + q.ttl⟩ ∧
    q2 = { q with slots := q.slots.set i (Slot.Locked ⟨q.ttl, now, id, v⟩) } := by
  cases henum : enumFind Slot.is_filled q.slots with
  | none =>
    rw [Queue.next_none q id now henum] at h
    exact absurd (congrArg Prod.fst h) (by simp)
  | some r =>
    obtain ⟨j, s0⟩ := r
    cases s0 with
    | Empty =>
      have hp := (enumFind_eq_some henum).2
      simp [Slot.is_filled] at hp
    | Locked l =>
      have hp := (enumFind_eq_some henum).2
      simp [Slot.is_filled] at hp
    | Filled w =>
      rw [Queue.next_found q id now j w henum] at h
      have h1 := congrArg Prod.fst h
      have h2 := congrArg Prod.snd h
      have h3 := Option.some.inj h1
      have htag : (⟨id, q.ttl, now, now + q.ttl⟩ : LeaseTag) = tag := congrArg Prod.fst h3
      have hi : j = i := congrArg Prod.fst (congrArg Prod.snd h3)
      have hv : w = v := congrArg Prod.snd (congrArg Prod.snd h3)
      refine ⟨?_, htag.symm, ?_⟩
      · rw [hi, hv]
      · exact h2.symm.trans (by rw [hi, hv])

theorem Queue.nack_locked {T : Type} (q : Queue T) (i : Nat) (lease : Lease T) (id : Nat)
    (hlt : i < q.slots.length) (hslot : q.slots[i]? = some (Slot.Locked lease))
    (hid : lease.id = id) :
    q.nack id i = (.ok (), { q with slots := q.slots.set i (Slot.Filled lease.inner) }) := by
  unfold Queue.nack
  rw [dif_pos hlt]
  have hget : q.slots.get ⟨i, hlt⟩ = Slot.Locked lease := by
    rw [List.getElem?_eq_getElem hlt] at hslot
    simpa [List.get_eq_getElem] using Option.some.inj hslot
  rw [hget]
  have hnack : (Slot.Locked lease).nack id = (.ok (), Slot.Filled lease.inner) := by
    simp [Slot.nack, Slot.check_locked, Slot.is_locked, Lease.valid, hid]
  rw [hnack]

/-- C4: after push(m), when next() hands out (tag, i, v), nacking (tag.id, i)
succeeds and the following next() returns the same value v at the same index
i under a fresh lease whose id differs from tag.id (assuming the two drawn
random lease ids differ, which the spec treats as certain). -/
theorem queue_push_next_nack_next (T : Type) (q0 : Queue T) (m : T)
    (id1 now1 id2 now2 : Nat) (hid : id2 ≠ id1)
    (tag : LeaseTag) (i : Nat) (v : T) (q2 : Queue T)
    (hnext : ((q0.push m).2.1).next id1 now1 = (some (tag, i, v), q2)) :
    ∃ q3, q2.nack tag.id i = (.ok (), q3) ∧
      ∃ tag2 q4, q3.next id2 now2 = (some (tag2, i, v), q4) ∧ tag2.id ≠ tag.id := by
  obtain ⟨henum, htag, hq2⟩ := Queue.next_eq_some hnext
  have hget := (enumFind_eq_some henum).1
  have hlt : i < ((q0.push m).2.1).slots.length := by
    by_contra hcon
    rw [List.getElem?_eq_none (by omega)] at hget
    exact Option.noConfusion hget
  have hq2slots : q2.slots
      = ((q0.push m).2.1).slots.set i
          (Slot.Locked ⟨((q0.push m).2.1).ttl, now1, id1, v⟩) := by
    rw [hq2]
  have hq2ttl : q2.ttl = ((q0.push m).2.1).ttl := by rw [hq2]
  have hlt2 : i < q2.slots.length := by
    rw [hq2slots, List.length_set]
    exact hlt
  have hslot2 : q2.slots[i]?
      = some (Slot.Locked ⟨((q0.push m).2.1).ttl, now1, id1, v⟩) := by
    rw [hq2slots]
    exact List.getElem?_set_self hlt
  have htagid : tag.id = id1 := by rw [htag]
  have hnackeq := Queue.nack_locked q2 i ⟨((q0.push m).2.1).ttl, now1, id1, v⟩ tag.id
    hlt2 hslot2 (by rw [htagid])
  have hnackeq2 : q2.nack tag.id i
      = (.ok (), { q2 with slots := q2.slots.set i (Slot.Filled v) }) := hnackeq
  refine ⟨_, hnackeq2, ?_⟩
  have hq3 : ({ q2 with slots := q2.slots.set i (Slot.Filled v) } : Queue T).slots
      = ((q0.push m).2.1).slots.set i (Slot.Filled v) := by
    show q2.slots.set i (Slot.Filled v) = _
    rw [hq2slots, List.set_set]
  have henum3 : enumFind Slot.is_filled
      ({ q2 with slots := q2.slots.set i (Slot.Filled v) } : Queue T).slots
      = some (i, Slot.Filled v) := by
    apply enumFind_of_spec
    · rw [hq3]
      exact List.getElem?_set_self hlt
    · rfl
    · intro j y hj hy
      rw [hq3, List.getElem?_set_ne (by omega)] at hy
      exact enumFind_lt_not henum j y hj hy
  have hnext3 := Queue.next_found _ id2 now2 i v henum3
  refine ⟨_, _, hnext3, ?_⟩
  show id2 ≠ tag.id
  rw [htagid]
  exact hid

/-- Witness for C4: a concrete push, next, nack, next run on the empty queue
redelivers the value 3 at index 0 under a fresh lease id. -/
theorem queue_push_next_nack_next_witness :
    ∃ q3, (⟨10, [Slot.Locked ⟨10, 0, 0, 3⟩], Waker.empty⟩ : Queue Nat).nack
        (⟨0, 10, 0, 10⟩ : LeaseTag).id 0 = (.ok (), q3) ∧
      ∃ tag2 q4, q3.next 1 0 = (some (tag2, 0, 3), q4) ∧
        tag2.id ≠ (⟨0, 10, 0, 10⟩ : LeaseTag).id :=
  queue_push_next_nack_next Nat emptyQueue 3 0 0 1 0 (by decide) ⟨0, 10, 0, 10⟩ 0 3
    ⟨10, [Slot.Locked ⟨10, 0, 0, 3⟩], Waker.empty⟩ (by decide)

/-! ## Waker registry lemmas -/

theorem alistRemove_cons (p : Nat × Nat) (rest : List (Nat × Nat)) (id : Nat) :
    alistRemove (p :: rest) id
      = if p.1 = id then (some p.2, rest)
        else ((alistRemove rest id).1, p :: (alistRemove rest id).2) := by
  by_cases hp : p.1 = id <;> simp [alistRemove, hp]

theorem keyCount_alistInsert_mem (id h : Nat) :
    ∀ (l : List (Nat × Nat)), alistHasKey l id = true →
      ∀ k, keyCount (alistInsert l id h) k = keyCount l k := by
  intro l
  induction l with
  | nil => intro hk; simp [alistHasKey] at hk
  | cons p rest ih =>
    intro hk k
    by_cases hp : p.1 = id
    · simp [alistInsert, hp, keyCount]
    · have hk2 : alistHasKey rest id = true := by
        simpa [alistHasKey, hp] using hk
      simp [alistInsert, hp, keyCount, ih hk2 k]

theorem alistInsert_not_mem (id h : Nat) :
    ∀ (l : List (Nat × Nat)), alistHasKey l id = false →
      alistInsert l id h = l ++ [(id, h)] := by
  intro l
  induction l with
  | nil => intro _; rfl
  | cons p rest ih =>
    intro hk
    by_cases hp : p.1 = id
    · simp [alistHasKey, hp] at hk
    · have hk2 : alistHasKey rest id = false := by
        simpa [alistHasKey, hp] using hk
      simp [alistInsert, hp, ih hk2]

theorem keyCount_append (l1 l2 : List (Nat × Nat)) (k : Nat) :
    keyCount (l1 ++ l2) k = keyCount l1 k + keyCount l2 k := by
  induction l1 with
  | nil => simp [keyCount]
  | cons p rest ih => simp [keyCount, ih]; omega

theorem alistHasKey_iff_keyCount (id : Nat) :
    ∀ (l : List (Nat × Nat)), alistHasKey l id = true ↔ 0 < keyCount l id := by
  intro l
  induction l with
  | nil => simp [alistHasKey, keyCount]
  | cons p rest ih =>
    by_cases hp : p.1 = id
    · simp [alistHasKey, keyCount, hp]
    · simp [alistHasKey, keyCount, hp, ih]

theorem alistRemove_isSome (id : Nat) :
    ∀ (l : List (Nat × Nat)), (alistRemove l id).1.isSome = alistHasKey l id := by
  intro l
  induction l with
  | nil => rfl
  | cons p rest ih =>
    by_cases hp : p.1 = id
    · simp [alistRemove_cons, alistHasKey, hp]
    · simp [alistRemove_cons, alistHasKey, hp, ih]

theorem keyCount_alistRemove_self (id : Nat) :
    ∀ (l : List (Nat × Nat)), keyCount (alistRemove l id).2 id = keyCount l id - 1 := by
  intro l
  induction l with
  | nil => rfl
  | cons p rest ih =>
    by_cases hp : p.1 = id
    · simp [alistRemove_cons, keyCount, hp]
    · simp [alistRemove_cons, keyCount, hp, ih]

theorem keyCount_alistRemove_ne (id k : Nat) (hne : k ≠ id) :
    ∀ (l : List (Nat × Nat)), keyCount (alistRemove l id).2 k = keyCount l k := by
  intro l
  induction l with
  | nil => rfl
  | cons p rest ih =>
    by_cases hp : p.1 = id
    · have hpk : ¬ p.1 = k := by rw [hp]; exact fun hh => hne hh.symm
      simp [alistRemove_cons, keyCount, hp, hpk]
      omega
    · simp [alistRemove_cons, keyCount, hp, ih]

theorem wakerInv_empty : WakerInv Waker.empty :=
  ⟨List.nodup_nil, fun id => by simp [Waker.empty, keyCount]⟩

theorem register_inv (w : Waker) (hw : WakerInv w) (id h : Nat) :
    WakerInv (w.register id h) ∧
    (w.register id h).ids = (if id ∈ w.ids then w.ids else w.ids ++ [id]) := by
  obtain ⟨hnd, hcnt⟩ := hw
  by_cases hk : alistHasKey w.wakers id = true
  · have hmem : id ∈ w.ids := by
      have hpos := (alistHasKey_iff_keyCount id w.wakers).1 hk
      by_contra hmemn
      rw [hcnt id, if_neg hmemn] at hpos
      omega
    refine ⟨⟨?_, ?_⟩, ?_⟩
    · simpa [Waker.register, hk] using hnd
    · intro k
      simp only [Waker.register, hk, if_true]
      rw [keyCount_alistInsert_mem id h w.wakers hk k]
      exact hcnt k
    · simp [Waker.register, hk, hmem]
  · have hk2 : alistHasKey w.wakers id = false := by
      simpa using hk
    have hzero : keyCount w.wakers id = 0 := by
      by_contra hnz
      have hpos := (alistHasKey_iff_keyCount id w.wakers).2 (Nat.pos_of_ne_zero hnz)
      rw [hk2] at hpos
      exact Bool.noConfusion hpos
    have hmemn : id ∉ w.ids := by
      intro hmem
      have hone := hcnt id
      rw [if_pos hmem] at hone
      omega
    refine ⟨⟨?_, ?_⟩, ?_⟩
    · simp only [Waker.register, hk2]
      simp [List.nodup_append, hnd, hmemn]
    · intro k
      simp only [Waker.register, hk2]
      simp only [Bool.false_eq_true, if_false]
      rw [alistInsert_not_mem id h w.wakers hk2, keyCount_append]
      by_cases hkid : k = id
      · subst hkid
        have h1 : keyCount [(k, h)] k = 1 := by simp [keyCount]
        rw [hzero, h1, if_pos (show k ∈ w.ids ++ [k] by simp)]
      · have h0 : keyCount [(id, h)] k = 0 := by
          simp [keyCount]
          omega
        rw [h0, hcnt k]
        by_cases hm : k ∈ w.ids
        · rw [if_pos hm, if_pos (by simp [hm])]
        · rw [if_neg hm, if_neg (by simp [List.mem_append, hm, hkid])]
    · simp [Waker.register, hk2, hmemn]

theorem wake_inv (w : Waker) (hw : WakerInv w) :
    WakerInv (w.wake).2 ∧
    ((w.ids = [] → (w.wake).1 = WakeResult.empty ∧ (w.wake).2 = w) ∧
     (∀ id rest, w.ids = id :: rest →
        (w.wake).1 = WakeResult.woke id ∧
        (w.wake).2 = ⟨(alistRemove w.wakers id).2, rest⟩)) := by
  obtain ⟨hnd, hcnt⟩ := hw
  cases hids : w.ids with
  | nil =>
    have hwake : w.wake = (.empty, w) := by
      unfold Waker.wake
      rw [hids]
    refine ⟨?_, ?_, ?_⟩
    · rw [hwake]; exact ⟨hnd, hcnt⟩
    · intro _; rw [hwake]; exact ⟨rfl, rfl⟩
    · intro id rest habs; exact List.noConfusion habs
  | cons id rest =>
    have hmem : id ∈ w.ids := by rw [hids]; exact List.mem_cons_self id rest
    have hone : keyCount w.wakers id = 1 := by rw [hcnt id, if_pos hmem]
    have hk : alistHasKey w.wakers id = true :=
      (alistHasKey_iff_keyCount id w.wakers).2 (by omega)
    have hsome : (alistRemove w.wakers id).1.isSome = true := by
      rw [alistRemove_isSome]; exact hk
    obtain ⟨v, hrem⟩ : ∃ v, (alistRemove w.wakers id).1 = some v := by
      cases hx : (alistRemove w.wakers id).1 with
      | none => rw [hx] at hsome; exact Bool.noConfusion hsome
      | some v => exact ⟨v, rfl⟩
    have hpair : alistRemove w.wakers id = (some v, (alistRemove w.wakers id).2) := by
      rw [← hrem]
    have hwake1 : w.wake = (match alistRemove w.wakers id with
        | (some _, m) => (WakeResult.woke id, { wakers := m, ids := rest })
        | (none, m) => (WakeResult.panicked, { wakers := m, ids := rest })) := by
      unfold Waker.wake
      rw [hids]
    have hwake : w.wake = (.woke id, ⟨(alistRemove w.wakers id).2, rest⟩) := by
      rw [hwake1, hpair]
    have hndrest : rest.Nodup := by
      rw [hids] at hnd
      exact hnd.of_cons
    have hidrest : id ∉ rest := by
      rw [hids] at hnd
      exact (List.nodup_cons.1 hnd).1
    refine ⟨?_, ?_, ?_⟩
    · rw [hwake]
      show WakerInv ⟨(alistRemove w.wakers id).2, rest⟩
      refine ⟨hndrest, ?_⟩
      intro k
      show keyCount (alistRemove w.wakers id).2 k = if k ∈ rest then 1 else 0
      by_cases hkid : k = id
      · subst hkid
        rw [keyCount_alistRemove_self, hone, if_neg hidrest]
      · rw [keyCount_alistRemove_ne id k hkid, hcnt k]
        by_cases hm : k ∈ rest
        · rw [if_pos hm, if_pos (by rw [hids]; simp [hm])]
        · rw [if_neg hm]
          rw [if_neg (by rw [hids]; simp [List.mem_cons, hkid, hm])]
    · intro habs; exact List.noConfusion habs
    · intro id2 rest2 heq
      have hid2 : id = id2 := (List.cons.injEq .. ▸ heq).1
      have hrest2 : rest = rest2 := (List.cons.injEq .. ▸ heq).2
      subst hid2; subst hrest2
      exact ⟨by rw [hwake], by rw [hwake]⟩

theorem applyOps_inv : ∀ (ops : List WOp) (w : Waker),
    WakerInv w → WakerInv (w.applyOps ops) := by
  intro ops
  induction ops with
  | nil => intro w hw; exact hw
  | cons op rest ih =>
    intro w hw
    show WakerInv ((w.applyOp op).applyOps rest)
    apply ih
    cases op with
    | reg id h => exact (register_inv w hw id h).1
    | wk => exact (wake_inv w hw).1

/-- C10 (invariant): in every waker-registry state reachable from the empty
registry, every id in the FIFO has exactly one handle in the map, and the
next wake() never reaches the unreachable panic branch. -/
theorem waker_reachable_no_panic (ops : List WOp) :
    (∀ id, id ∈ (Waker.applyOps Waker.empty ops).ids →
      keyCount (Waker.applyOps Waker.empty ops).wakers id = 1) ∧
    ((Waker.applyOps Waker.empty ops).wake).1 ≠ WakeResult.panicked := by
  have hinv := applyOps_inv ops Waker.empty wakerInv_empty
  obtain ⟨hnd, hcnt⟩ := hinv
  constructor
  · intro id hmem
    rw [hcnt id, if_pos hmem]
  · cases hids : (Waker.applyOps Waker.empty ops).ids with
    | nil =>
      have hw := wake_inv _ ⟨hnd, hcnt⟩
      have hres := (hw.2.1 hids).1
      rw [hres]
      simp
    | cons id rest =>
      have hw := wake_inv _ ⟨hnd, hcnt⟩
      have hres := (hw.2.2 id rest hids).1
      rw [hres]
      simp

/-- Witness for C10: after registering consumer 1, its id has exactly one
handle in the map. -/
theorem waker_reachable_no_panic_witness :
    keyCount (Waker.applyOps Waker.empty [WOp.reg 1 2]).wakers 1 = 1 :=
  (waker_reachable_no_panic [WOp.reg 1 2]).1 1 (by decide)

theorem registerAll_inv : ∀ (rs : List (Nat × Nat)) (w : Waker), WakerInv w →
    WakerInv (w.registerAll rs) ∧
    (w.registerAll rs).ids
      = rs.foldl (fun acc p => if p.1 ∈ acc then acc else acc ++ [p.1]) w.ids := by
  intro rs
  induction rs with
  | nil => intro w hw; exact ⟨hw, rfl⟩
  | cons p rest ih =>
    intro w hw
    have hreg := register_inv w hw p.1 p.2
    have hrec := ih (w.register p.1 p.2) hreg.1
    refine ⟨hrec.1, ?_⟩
    show (Waker.registerAll (w.register p.1 p.2) rest).ids = _
    rw [hrec.2, hreg.2, List.foldl_cons]

theorem wakeN_drain : ∀ (n : Nat) (w : Waker), WakerInv w → w.ids.length = n →
    (Waker.wakeN n w).1 = w.ids.map WakeResult.woke := by
  intro n
  induction n with
  | zero =>
    intro w _ hlen
    have hnil : w.ids = [] := List.eq_nil_of_length_eq_zero hlen
    simp [Waker.wakeN, hnil]
  | succ n ih =>
    intro w hw hlen
    cases hids : w.ids with
    | nil => rw [hids] at hlen; simp at hlen
    | cons id rest =>
      have hw2 := wake_inv w hw
      have hwoke := (hw2.2.2 id rest hids).1
      have hstate := (hw2.2.2 id rest hids).2
      have hstep : (Waker.wakeN (n + 1) w).1
          = (w.wake).1 :: (Waker.wakeN n (w.wake).2).1 := rfl
      have hlenrest : ((w.wake).2).ids.length = n := by
        rw [hstate]
        show rest.length = n
        rw [hids] at hlen
        simpa using hlen
      rw [hstep, hwoke, ih (w.wake).2 hw2.1 hlenrest, hstate]
      show WakeResult.woke id :: rest.map WakeResult.woke
          = (id :: rest).map WakeResult.woke
      rfl

/-- C8: registering any sequence of (id, handle) pairs on the empty registry
and then waking once per distinct id wakes exactly the distinct ids in the
order of their first registration: a re-registered id keeps its original
FIFO position and is woken once. -/
theorem waker_fifo_fairness (rs : List (Nat × Nat)) :
    (Waker.wakeN (firstRegOrder (rs.map Prod.fst)).length (Waker.registerAll Waker.empty rs)).1
      = (firstRegOrder (rs.map Prod.fst)).map WakeResult.woke := by
  have hall := registerAll_inv rs Waker.empty wakerInv_empty
  have hids : (Waker.registerAll Waker.empty rs).ids = firstRegOrder (rs.map Prod.fst) := by
    rw [hall.2, firstRegOrder, List.foldl_map]
    rfl
  have hdrain := wakeN_drain (firstRegOrder (rs.map Prod.fst)).length
    (Waker.registerAll Waker.empty rs) hall.1 (by rw [hids])
  rw [hdrain, hids]

/-! ## Service layer: publish -/

/-- C5: the Publish handler validates data then topic without touching the
registry, maps a registry miss to NotFound, and otherwise stamps the publish
time and delegates to Topic::push, returning Committed on success and
Internal carrying the core error message on failure. -/
theorem handler_publish_contract (reg : List (String × Topic Message))
    (msg : Message) (now : Nat) :
    (msg.data = [] →
      Handler.publish reg msg now
        = (.error (.invalidArgument "data payload must be non-empty."), reg)) ∧
    (msg.data ≠ [] → msg.topic = "" →
      Handler.publish reg msg now
        = (.error (.invalidArgument "topic name must be non-empty"), reg)) ∧
    (msg.data ≠ [] → msg.topic ≠ "" → alookup reg msg.topic = none →
      Handler.publish reg msg now = (.error (.notFound msg.topic), reg)) ∧
    (∀ t, msg.data ≠ [] → msg.topic ≠ "" → alookup reg msg.topic = some t →
      ((t.push { msg with published := some now }).1 = .ok () →
        Handler.publish reg msg now
          = (.ok ⟨.Committed⟩,
             supdate reg msg.topic (t.push { msg with published := some now }).2)) ∧
      (∀ e, (t.push { msg with published := some now }).1 = .error e →
        Handler.publish reg msg now
          = (.error (.internal ("queue is full or otherwise invalid: " ++ e)),
             supdate reg msg.topic (t.push { msg with published := some now }).2))) := by
  refine ⟨?_, ?_, ?_, ?_⟩
  · intro hdata
    unfold Handler.publish
    rw [if_pos hdata]
  · intro hdata htopic
    unfold Handler.publish
    rw [if_neg hdata, if_pos htopic]
  · intro hdata htopic hlook
    unfold Handler.publish
    rw [if_neg hdata, if_neg htopic, hlook]
  · intro t hdata htopic hlook
    have hred : Handler.publish reg msg now
        = (match t.push { msg with published := some now } with
           | (res, t2) =>
             match res with
             | .ok _ =>
               ((Except.ok ⟨ConfStatus.Committed⟩ : Except Status Confirmation),
                 supdate reg msg.topic t2)
             | .error e =>
               (Except.error (Status.internal ("queue is full or otherwise invalid: " ++ e)),
                 supdate reg msg.topic t2)) := by
      unfold Handler.publish
      rw [if_neg hdata, if_neg htopic, hlook]
    constructor
    · intro hok
      rw [hred]
      cases hpush : t.push { msg with published := some now } with
      | mk res t2 =>
        rw [hpush] at hok
        have hok2 : res = Except.ok () := hok
        rw [hok2]
    · intro e herr
      rw [hred]
      cases hpush : t.push { msg with published := some now } with
      | mk res t2 =>
        rw [hpush] at herr
        have herr2 : res = Except.error e := herr
        rw [herr2]

/-- Witness for C5: publishing an empty payload is rejected with
InvalidArgument and the registry is untouched. -/
theorem handler_publish_contract_witness :
    Handler.publish [] ⟨"t", [], [], none⟩ 5
      = (.error (.invalidArgument "data payload must be non-empty."), []) :=
  (handler_publish_contract [] ⟨"t", [], [], none⟩ 5).1 rfl

/-! ## List ordering lemmas -/

theorem lexLe_total : ∀ (a b : List Char), lexLe a b = true ∨ lexLe b a = true := by
  intro a
  induction a with
  | nil => intro b; left; rfl
  | cons x xs ih =>
    intro b
    cases b with
    | nil => right; rfl
    | cons y ys =>
      by_cases h1 : x.toNat < y.toNat
      · left; simp [lexLe, h1]
      · by_cases h2 : y.toNat < x.toNat
        · right; simp [lexLe, h2]
        · rcases ih ys with h | h
          · left; simp [lexLe, h1, h2, h]
          · right; simp [lexLe, h1, h2, h]

theorem lexLe_trans : ∀ (a b c : List Char),
    lexLe a b = true → lexLe b c = true → lexLe a c = true := by
  intro a
  induction a with
  | nil => intro b c _ _; rfl
  | cons x xs ih =>
    intro b c hab hbc
    cases b with
    | nil => simp [lexLe] at hab
    | cons y ys =>
      cases c with
      | nil => simp [lexLe] at hbc
      | cons z zs =>
        by_cases hxy : x.toNat < y.toNat
        · by_cases hyz : y.toNat < z.toNat
          · have hxz : x.toNat < z.toNat := by omega
            simp [lexLe, hxz]
          · by_cases hzy : z.toNat < y.toNat
            · simp [lexLe, hyz, hzy] at hbc
            · have hxz : x.toNat < z.toNat := by omega
              simp [lexLe, hxz]
        · by_cases hyx : y.toNat < x.toNat
          · simp [lexLe, hxy, hyx] at hab
          · have hab2 : lexLe xs ys = true := by
              simpa [lexLe, hxy, hyx] using hab
            by_cases hyz : y.toNat < z.toNat
            · have hxz : x.toNat < z.toNat := by omega
              simp [lexLe, hxz]
            · by_cases hzy : z.toNat < y.toNat
              · simp [lexLe, hyz, hzy] at hbc
              · have hbc2 : lexLe ys zs = true := by
                  simpa [lexLe, hyz, hzy] using hbc
                have hxz : ¬ x.toNat < z.toNat := by omega
                have hzx : ¬ z.toNat < x.toNat := by omega
                simp [lexLe, hxz, hzx, ih ys zs hab2 hbc2]

/-- C3 counterexample: with topics "a" and "b" in the registry, the first
item the Topics.List stream produces is "b" (the largest name), not the
smallest name "a": the ascending-sorted snapshot is emitted from the back. -/
theorem topics_list_first_item_not_smallest :
    (popN 0 (topicsList twoTopicReg)).map WireTopic.name = some "b" ∧
    (topicsList twoTopicReg).map WireTopic.name = ["a", "b"] ∧
    ("b" : String) ≠ "a" := by
  refine ⟨rfl, rfl, by decide⟩

/-- C3 amended: the Topics.List and Subscriptions.List streams emit the
reverse of the ascending-sorted snapshot — the k-th item produced is the
k-th item of the reversed sorted list, i.e. the k-th largest name. -/
theorem lists_stream_descending (T : Type) (reg : List (String × Topic T))
    (topicName : String) (t : Topic T) (k : Nat) :
    popN k (topicsList reg) = (topicsList reg).reverse[k]? ∧
    List.Sorted nameLe (topicsList reg) ∧
    (topicsList reg).Perm (reg.map (fun p => WireTopic.from_inner p.1 p.2)) ∧
    popN k (subsList topicName t) = (subsList topicName t).reverse[k]? ∧
    List.Sorted subNameLe (subsList topicName t) ∧
    (subsList topicName t).Perm
      (t.subscriptions.map (fun p => WireSub.from_inner p.1 topicName p.2)) := by
  haveI htot1 : IsTotal WireTopic nameLe :=
    ⟨fun a b => lexLe_total a.name.data b.name.data⟩
  haveI htr1 : IsTrans WireTopic nameLe :=
    ⟨fun a b c hab hbc => lexLe_trans a.name.data b.name.data c.name.data hab hbc⟩
  haveI htot2 : IsTotal WireSub subNameLe :=
    ⟨fun a b => lexLe_total a.name.data b.name.data⟩
  haveI htr2 : IsTrans WireSub subNameLe :=
    ⟨fun a b c hab hbc => lexLe_trans a.name.data b.name.data c.name.data hab hbc⟩
  refine ⟨?_, ?_, ?_, ?_, ?_, ?_⟩
  · have h := popN_reverse (topicsList reg).reverse k
    rwa [List.reverse_reverse] at h
  · exact List.sorted_insertionSort nameLe _
  · exact List.perm_insertionSort nameLe _
  · have h := popN_reverse (subsList topicName t).reverse k
    rwa [List.reverse_reverse] at h
  · exact List.sorted_insertionSort subNameLe _
  · exact List.perm_insertionSort subNameLe _

end RiftDB
